import Mathlib

/-!
# Verification of the student-roster manager (`code_made_by_ai.py`)

Shallow embedding of the repository's data model and operations:

* Python's per-student `scores` dict (subject name → numeric score) and the
  manager's `students` dict (id → `Student`) are modelled as association
  lists with Python-dict update semantics (`dictInsert` replaces in place,
  `dictGet` finds the unique binding, `dictRemove` deletes it).
* Python numbers passed around as scores are modelled as rationals (`ℚ`);
  a dynamically-typed argument that may fail `isinstance(score, (int, float))`
  is modelled by `ScoreVal`, with a `nonNumeric` constructor for any
  non-numeric Python value.
* `datetime.datetime.now()` timestamps are modelled as an abstract `ℕ`;
  `isoformat` / `fromisoformat` are modelled by `IsoString`: serialising a
  timestamp always yields a parseable string (`IsoString.valid`), while a
  hand-edited backing file may contain a string `fromisoformat` rejects
  (`IsoString.malformed`).
* The backing JSON file is modelled by `Option FileContent` carried in the
  manager state: `none` = file absent, `FileContent.junk` = a file
  `json.load` fails on, `FileContent.parsed` = a parsed document's
  `students` mapping (id → raw per-record dict).  The document's scores are
  JSON numbers, hence `ℚ` in the model.  OS-level write failures in
  `save_data` are not modelled (no claim depends on them); every failure
  path of `load_data` is.
-/

/-- A Python value passed to `Student.add_score`: either a number
(`int`/`float`, modelled as `ℚ`) or some non-numeric value, which
`isinstance(score, (int, float))` rejects. -/
inductive ScoreVal where
  | num (q : ℚ)
  | nonNumeric
deriving DecidableEq, Repr

/-- Python-dict lookup on an association list: the value of the unique
binding of `k`, if present. -/
def dictGet (k : String) : List (String × α) → Option α
  | [] => none
  | (k', v) :: rest => if k' = k then some v else dictGet k rest

/-- Python-dict update `d[k] = v`: replace the existing binding of `k` in
place, or append a fresh binding at the end (insertion order). -/
def dictInsert (k : String) (v : α) : List (String × α) → List (String × α)
  | [] => [(k, v)]
  | (k', v') :: rest =>
      if k' = k then (k, v) :: rest else (k', v') :: dictInsert k v rest

/-- Python-dict deletion `del d[k]`: drop the unique binding of `k`. -/
def dictRemove (k : String) : List (String × α) → List (String × α)
  | [] => []
  | (k', v') :: rest =>
      if k' = k then rest else (k', v') :: dictRemove k rest

@[simp] theorem dictGet_nil (k : String) : dictGet k ([] : List (String × α)) = none := rfl

theorem dictGet_insert_self (k : String) (v : α) (l : List (String × α)) :
    dictGet k (dictInsert k v l) = some v := by
  induction l with
  | nil => simp [dictInsert, dictGet]
  | cons p rest ih =>
      obtain ⟨k', v'⟩ := p
      by_cases h : k' = k <;> simp [dictInsert, dictGet, h, ih]

theorem dictGet_insert_ne (k k' : String) (v : α) (l : List (String × α))
    (h : k ≠ k') : dictGet k' (dictInsert k v l) = dictGet k' l := by
  induction l with
  | nil => simp [dictInsert, dictGet, h]
  | cons p rest ih =>
      obtain ⟨k₀, v₀⟩ := p
      by_cases h0 : k₀ = k
      · subst h0
        simp [dictInsert, dictGet, h]
      · simp [dictInsert, dictGet, h0, ih]

theorem mem_dictInsert (k : String) (v : α) (l : List (String × α)) (p : String × α)
    (hp : p ∈ dictInsert k v l) : p = (k, v) ∨ p ∈ l := by
  induction l with
  | nil =>
      simp only [dictInsert, List.mem_singleton] at hp
      exact Or.inl hp
  | cons q rest ih =>
      obtain ⟨k₀, v₀⟩ := q
      by_cases h0 : k₀ = k
      · simp only [dictInsert, if_pos h0, List.mem_cons] at hp
        rcases hp with h1 | h1
        · exact Or.inl h1
        · exact Or.inr (List.mem_cons_of_mem _ h1)
      · simp only [dictInsert, if_neg h0, List.mem_cons] at hp
        rcases hp with h1 | h1
        · subst h1
          exact Or.inr (List.mem_cons_self _ _)
        · rcases ih h1 with h2 | h2
          · exact Or.inl h2
          · exact Or.inr (List.mem_cons_of_mem _ h2)

theorem mem_of_mem_dictRemove (k : String) (l : List (String × α)) (p : String × α)
    (hp : p ∈ dictRemove k l) : p ∈ l := by
  induction l with
  | nil =>
      simp only [dictRemove] at hp
      exact hp
  | cons q rest ih =>
      obtain ⟨k₀, v₀⟩ := q
      by_cases h0 : k₀ = k
      · simp only [dictRemove, if_pos h0] at hp
        exact List.mem_cons_of_mem _ hp
      · simp only [dictRemove, if_neg h0, List.mem_cons] at hp
        rcases hp with h1 | h1
        · subst h1
          exact List.mem_cons_self _ _
        · exact List.mem_cons_of_mem _ (ih h1)

theorem dictGet_remove_ne (k k' : String) (l : List (String × α))
    (h : k ≠ k') : dictGet k' (dictRemove k l) = dictGet k' l := by
  induction l with
  | nil => simp [dictRemove]
  | cons p rest ih =>
      obtain ⟨k₀, v₀⟩ := p
      by_cases h0 : k₀ = k
      · subst h0
        simp [dictRemove, dictGet, h]
      · simp [dictRemove, dictGet, h0, ih]

/-- The timestamp, modelling `datetime.datetime.now()` values abstractly. -/
abbrev Timestamp := ℕ

/-- The serialised form of a timestamp: `datetime.isoformat()` always
produces a string that `fromisoformat` parses back to the same timestamp
(`valid t`); a string in a hand-edited file may instead fail to parse
(`malformed`). -/
inductive IsoString where
  | valid (t : Timestamp)
  | malformed
deriving DecidableEq, Repr

/-- `datetime.isoformat()`. -/
def isoformat (t : Timestamp) : IsoString := .valid t

/-- `datetime.fromisoformat()`; raises (here: `none`) on a malformed string. -/
def fromisoformat : IsoString → Option Timestamp
  | .valid t => some t
  | .malformed => none

/-- `class Student`: identity fields, subject → score mapping, creation time.
`__init__` sets `scores = {}` and `create_time = datetime.now()`. -/
structure Student where
  student_id : String
  name : String
  age : Int
  gender : String
  scores : List (String × ℚ)
  create_time : Timestamp
deriving DecidableEq, Repr

/-- `Student.__init__(student_id, name, age, gender)`: fresh record with an
empty scores dict; the ambient clock value is passed explicitly. -/
def Student.init (student_id name : String) (age : Int) (gender : String)
    (now : Timestamp) : Student :=
  { student_id := student_id, name := name, age := age, gender := gender,
    scores := [], create_time := now }

/-- `Student.add_score(subject, score)`: rejects a non-numeric value or one
outside [0, 100] (returns `False`, scores untouched); otherwise inserts or
overwrites `scores[subject]` and returns `True`. -/
def Student.add_score (s : Student) (subject : String) (score : ScoreVal) :
    Student × Bool :=
  match score with
  | .nonNumeric => (s, false)
  | .num q =>
      if q < 0 ∨ 100 < q then (s, false)
      else ({ s with scores := dictInsert subject q s.scores }, true)

/-- `Student.get_average_score()`: mean of the scores, `0.0` when empty. -/
def Student.get_average_score (s : Student) : ℚ :=
  if s.scores = [] then 0
  else (s.scores.map Prod.snd).sum / s.scores.length

/-- `Student.get_total_score()`: sum of the scores. -/
def Student.get_total_score (s : Student) : ℚ :=
  (s.scores.map Prod.snd).sum

/-- Whether `add_score` accepts the value: numeric and in [0, 100]. -/
def scoreOK : ScoreVal → Bool
  | .num q => decide (0 ≤ q ∧ q ≤ 100)
  | .nonNumeric => false

/-- C5: for every record, subject and value, a numeric value in [0,100] is
accepted by `add_score` and reading the subject back yields exactly that
value; any other value is rejected with the scores mapping unchanged. -/
theorem add_score_spec (s : Student) (subject : String) (v : ScoreVal) :
    (∀ q : ℚ, v = .num q → 0 ≤ q → q ≤ 100 →
      (s.add_score subject v).2 = true ∧
      dictGet subject (s.add_score subject v).1.scores = some q) ∧
    (scoreOK v = false →
      (s.add_score subject v).2 = false ∧
      (s.add_score subject v).1.scores = s.scores) := by
  constructor
  · rintro q rfl h0 h100
    have hcond : ¬ (q < 0 ∨ 100 < q) := by
      push_neg
      exact ⟨h0, h100⟩
    constructor
    · simp [Student.add_score, hcond]
    · simp [Student.add_score, hcond, dictGet_insert_self]
  · intro hbad
    cases v with
    | nonNumeric => simp [Student.add_score]
    | num q =>
        have hcond : q < 0 ∨ 100 < q := by
          by_contra hc
          push_neg at hc
          simp [scoreOK, hc.1, hc.2] at hbad
        simp [Student.add_score, hcond]

/-- Witness for C5: score 95 on subject `"math"` is accepted and read back;
score 120 is rejected leaving the mapping unchanged. -/
theorem add_score_spec_witness :
    ((Student.init "s1" "Alice" 20 "F" 0).add_score "math" (.num 95)).2 = true ∧
    dictGet "math" ((Student.init "s1" "Alice" 20 "F" 0).add_score "math" (.num 95)).1.scores
      = some 95 ∧
    ((Student.init "s1" "Alice" 20 "F" 0).add_score "math" (.num 120)).2 = false ∧
    ((Student.init "s1" "Alice" 20 "F" 0).add_score "math" (.num 120)).1.scores
      = (Student.init "s1" "Alice" 20 "F" 0).scores := by
  have h1 := (add_score_spec (Student.init "s1" "Alice" 20 "F" 0) "math" (.num 95)).1
    95 rfl (by norm_num) (by norm_num)
  have h2 := (add_score_spec (Student.init "s1" "Alice" 20 "F" 0) "math" (.num 120)).2
    (by decide)
  exact ⟨h1.1, h1.2, h2.1, h2.2⟩

/-- The per-record dict produced by `Student.to_dict` / consumed by
`Student.from_dict`: all six keys, with the creation time as a serialised
string.  A record read back from a hand-edited file may carry a malformed
`create_time` string. -/
structure RawStudent where
  student_id : String
  name : String
  age : Int
  gender : String
  scores : List (String × ℚ)
  create_time : IsoString
deriving DecidableEq, Repr

/-- `Student.to_dict()`: all fields, `create_time` via `isoformat()`. -/
def Student.to_dict (s : Student) : RawStudent :=
  { student_id := s.student_id, name := s.name, age := s.age,
    gender := s.gender, scores := s.scores,
    create_time := isoformat s.create_time }

/-- `Student.from_dict(data)`: rebuilds the record, assigning `scores`
directly (no validation) and parsing `create_time` with `fromisoformat`,
which raises — here `none` — on a malformed string. -/
def Student.from_dict (d : RawStudent) : Option Student :=
  match fromisoformat d.create_time with
  | none => none
  | some t =>
      some { student_id := d.student_id, name := d.name, age := d.age,
             gender := d.gender, scores := d.scores, create_time := t }

/-- Content of the backing JSON file: either a document `json.load`
rejects (`junk`), or a parsed document's `students` mapping
(id → per-record dict). -/
inductive FileContent where
  | parsed (students : List (String × RawStudent))
  | junk
deriving DecidableEq, Repr

/-- `class StudentManager`: the in-memory id → `Student` mapping plus the
backing file's current content (`none` = file absent). -/
structure StudentManager where
  students : List (String × Student)
  file : Option FileContent
deriving DecidableEq, Repr

/-- `StudentManager.save_data()`: serialise every record via `to_dict` into
the `students` document and overwrite the backing file.  (OS-level write
failures are outside the model; the JSON dump of an in-memory state never
fails.) -/
def StudentManager.save_data (m : StudentManager) : StudentManager × Bool :=
  ({ m with
      file := some (.parsed (m.students.map (fun p => (p.1, p.2.to_dict)))) },
   true)

/-- Deserialise the document's records one by one via `Student.from_dict`;
in Python the dict comprehension in `load_data` either completes for every
record or raises before anything is assigned, so a single failure yields
`none`. -/
def loadStudents : List (String × RawStudent) → Option (List (String × Student))
  | [] => some []
  | (sid, d) :: rest =>
      match Student.from_dict d, loadStudents rest with
      | some st, some l => some ((sid, st) :: l)
      | _, _ => none

/-- `StudentManager.load_data()`: absent file is success with the state
untouched; a file `json.load` rejects, or a record `from_dict` raises on,
is caught and reported as `False` with the in-memory mapping untouched
(the comprehension is evaluated in full before `self.students` is
assigned); otherwise the mapping is replaced by the file's records. -/
def StudentManager.load_data (m : StudentManager) : StudentManager × Bool :=
  match m.file with
  | none => (m, true)
  | some .junk => (m, false)
  | some (.parsed raw) =>
      match loadStudents raw with
      | none => (m, false)
      | some sts => ({ m with students := sts }, true)

/-- `StudentManager.add_student(student)`: `False` if the id is already a
key, leaving everything untouched; otherwise insert and persist. -/
def StudentManager.add_student (m : StudentManager) (s : Student) :
    StudentManager × Bool :=
  if (dictGet s.student_id m.students).isSome then (m, false)
  else
    (({ m with students := dictInsert s.student_id s m.students }).save_data.1,
     true)

/-- `StudentManager.delete_student(student_id)`: `False` if the id is
absent; otherwise remove the binding and persist. -/
def StudentManager.delete_student (m : StudentManager) (student_id : String) :
    StudentManager × Bool :=
  if (dictGet student_id m.students).isSome then
    (({ m with students := dictRemove student_id m.students }).save_data.1, true)
  else (m, false)

/-- `StudentManager.find_student(student_id)`: exact key lookup. -/
def StudentManager.find_student (m : StudentManager) (student_id : String) :
    Option Student :=
  dictGet student_id m.students

/-- The `**kwargs` accepted by `update_student`: each supported key is
optionally present; a supplied `scores` value is a dict of subject →
dynamically-typed value. -/
structure UpdateFields where
  name : Option String
  age : Option Int
  gender : Option String
  scores : Option (List (String × ScoreVal))
deriving Repr

/-- The record after `update_student`'s field assignments: each supplied
basic field overwrites, then each supplied score entry goes through
`add_score` (whose result is discarded). -/
def applyUpdate (st : Student) (kw : UpdateFields) : Student :=
  let st1 := match kw.name with
    | none => st
    | some n => { st with name := n }
  let st2 := match kw.age with
    | none => st1
    | some a => { st1 with age := a }
  let st3 := match kw.gender with
    | none => st2
    | some g => { st2 with gender := g }
  match kw.scores with
  | none => st3
  | some l => l.foldl (fun s p => (s.add_score p.1 p.2).1) st3

/-- `StudentManager.update_student(student_id, **kwargs)`: `False` if the
id is absent; otherwise mutate the stored record via the supplied fields
and persist, returning `True`. -/
def StudentManager.update_student (m : StudentManager) (student_id : String)
    (kw : UpdateFields) : StudentManager × Bool :=
  match dictGet student_id m.students with
  | none => (m, false)
  | some st =>
      (({ m with
           students := dictInsert student_id (applyUpdate st kw) m.students
         }).save_data.1,
       true)

/-- The aggregate returned by `get_class_statistics`. -/
structure ClassStatistics where
  total_students : ℕ
  average_score : ℚ
  max_score : ℚ
  min_score : ℚ
  excellent_count : ℕ
  fail_count : ℕ
deriving DecidableEq, Repr

/-- Python `max` on a nonempty list (the code only calls it when the
student mapping is nonempty). -/
def listMax : List ℚ → ℚ
  | [] => 0
  | x :: xs => xs.foldl max x

/-- Python `min` on a nonempty list. -/
def listMin : List ℚ → ℚ
  | [] => 0
  | x :: xs => xs.foldl min x

/-- `StudentManager.get_class_statistics()`: all-zero aggregate when there
are no students; otherwise count, mean / max / min of the per-record
averages, and the ≥ 90 and < 60 counts. -/
def StudentManager.get_class_statistics (m : StudentManager) : ClassStatistics :=
  if m.students = [] then
    { total_students := 0, average_score := 0, max_score := 0, min_score := 0,
      excellent_count := 0, fail_count := 0 }
  else
    let scores := m.students.map (fun p => p.2.get_average_score)
    { total_students := m.students.length,
      average_score := scores.sum / m.students.length,
      max_score := listMax scores,
      min_score := listMin scores,
      excellent_count := (scores.filter (fun s => 90 ≤ s)).length,
      fail_count := (scores.filter (fun s => s < 60)).length }

theorem dictGet_eq_none_of_not_mem_keys (k : String) (l : List (String × α))
    (h : k ∉ l.map Prod.fst) : dictGet k l = none := by
  induction l with
  | nil => rfl
  | cons p rest ih =>
      obtain ⟨k₀, v₀⟩ := p
      simp only [List.map_cons, List.mem_cons] at h
      push_neg at h
      have hk : k₀ ≠ k := fun hk => h.1 hk.symm
      simp only [dictGet, if_neg hk]
      exact ih h.2

theorem dictGet_remove_self_of_nodup (k : String) (l : List (String × α))
    (h : (l.map Prod.fst).Nodup) : dictGet k (dictRemove k l) = none := by
  induction l with
  | nil => rfl
  | cons p rest ih =>
      obtain ⟨k₀, v₀⟩ := p
      simp only [List.map_cons, List.nodup_cons] at h
      by_cases h0 : k₀ = k
      · subst h0
        simp only [dictRemove, if_pos rfl]
        exact dictGet_eq_none_of_not_mem_keys _ _ h.1
      · simp only [dictRemove, if_neg h0, dictGet, if_neg h0]
        exact ih h.2

theorem from_dict_to_dict (s : Student) : Student.from_dict s.to_dict = some s := rfl

theorem loadStudents_map_to_dict (l : List (String × Student)) :
    loadStudents (l.map (fun p => (p.1, p.2.to_dict))) = some l := by
  induction l with
  | nil => rfl
  | cons p rest ih =>
      obtain ⟨sid, s⟩ := p
      simp only [List.map_cons, loadStudents, from_dict_to_dict, ih]

/-- C1: persistence round-trips exactly — for every manager state, saving
and then loading restores the student mapping unchanged (and the load
succeeds); and record serialisation followed by deserialisation is the
identity on every record. -/
theorem save_load_roundtrip :
    (∀ m : StudentManager,
       (m.save_data.1.load_data).2 = true ∧
       (m.save_data.1.load_data).1.students = m.students) ∧
    (∀ s : Student, Student.from_dict s.to_dict = some s) := by
  constructor
  · intro m
    simp [StudentManager.save_data, StudentManager.load_data,
      loadStudents_map_to_dict]
  · exact from_dict_to_dict

/-- C6: `add_student` of a record whose id is already a key returns `False`
and changes nothing (in particular the stored record with that id is
untouched); with a fresh id it returns `True` and `find_student` then
yields exactly the record added. -/
theorem add_student_spec (m : StudentManager) (s : Student) :
    (∀ old : Student, dictGet s.student_id m.students = some old →
       m.add_student s = (m, false) ∧
       (m.add_student s).1.find_student s.student_id = some old) ∧
    (dictGet s.student_id m.students = none →
       (m.add_student s).2 = true ∧
       (m.add_student s).1.find_student s.student_id = some s) := by
  constructor
  · intro old hold
    have hsome : (dictGet s.student_id m.students).isSome := by
      simp [hold]
    constructor
    · simp [StudentManager.add_student, hsome]
    · simp [StudentManager.add_student, hsome, StudentManager.find_student, hold]
  · intro hnone
    have hnotsome : ¬ (dictGet s.student_id m.students).isSome = true := by
      simp [hnone]
    constructor
    · simp [StudentManager.add_student, hnotsome]
    · simp [StudentManager.add_student, hnotsome, StudentManager.find_student,
        StudentManager.save_data, dictGet_insert_self]

/-- C7: `delete_student` of an absent id returns `False` with the manager
unchanged; of a present id it returns `True`, `find_student` of that id
afterwards is absent (the id → record mapping being a dict, its keys are
unduplicated), and every other id still maps to its old record. -/
theorem delete_student_spec (m : StudentManager) (student_id : String) :
    (dictGet student_id m.students = none →
       m.delete_student student_id = (m, false)) ∧
    ((dictGet student_id m.students).isSome →
       (m.delete_student student_id).2 = true ∧
       ((m.students.map Prod.fst).Nodup →
          (m.delete_student student_id).1.find_student student_id = none) ∧
       (∀ id2 : String, id2 ≠ student_id →
          (m.delete_student student_id).1.find_student id2
            = m.find_student id2)) := by
  constructor
  · intro hnone
    have hnotsome : ¬ (dictGet student_id m.students).isSome = true := by
      simp [hnone]
    simp [StudentManager.delete_student, hnotsome]
  · intro hsome
    refine ⟨by simp [StudentManager.delete_student, hsome], ?_, ?_⟩
    · intro hnodup
      simp only [StudentManager.delete_student, if_pos hsome,
        StudentManager.save_data, StudentManager.find_student]
      exact dictGet_remove_self_of_nodup _ _ hnodup
    · intro id2 hne
      simp only [StudentManager.delete_student, if_pos hsome,
        StudentManager.save_data, StudentManager.find_student]
      exact dictGet_remove_ne _ _ _ (fun h => hne h.symm)

/-- C8: whenever `load_data` reports failure — the file is unparseable or
some record fails to deserialise — the manager state, in particular its
in-memory student mapping, is exactly what it was before the call. -/
theorem load_data_failure_spec (m : StudentManager) :
    (m.load_data).2 = false → (m.load_data).1 = m := by
  intro hfail
  match hf : m.file with
  | none => simp [StudentManager.load_data, hf]
  | some .junk => simp [StudentManager.load_data, hf]
  | some (.parsed raw) =>
      match hl : loadStudents raw with
      | none => simp [StudentManager.load_data, hf, hl]
      | some sts =>
          simp [StudentManager.load_data, hf, hl] at hfail

/-- Example record with average 95, for concrete evaluations. -/
def stA : Student :=
  { student_id := "s1", name := "Alice", age := 20, gender := "F",
    scores := [("math", 95)], create_time := 0 }

/-- Example record with average 55. -/
def stB : Student :=
  { student_id := "s2", name := "Bob", age := 21, gender := "M",
    scores := [("math", 55)], create_time := 1 }

/-- Example record with average 72. -/
def stC : Student :=
  { student_id := "s3", name := "Carol", age := 22, gender := "F",
    scores := [("math", 72)], create_time := 2 }

/-- Example manager holding records with averages 95, 55, 72. -/
def mEx3 : StudentManager :=
  { students := [("s1", stA), ("s2", stB), ("s3", stC)], file := none }

/-- Witness for C6: adding `stA` to an empty manager succeeds and is found
back; adding it again to a manager already holding id `"s1"` fails and
leaves everything untouched. -/
theorem add_student_spec_witness :
    ((StudentManager.mk [] none).add_student stA).2 = true ∧
    ((StudentManager.mk [] none).add_student stA).1.find_student "s1" = some stA ∧
    mEx3.add_student stA = (mEx3, false) ∧
    mEx3.find_student "s1" = some stA := by
  have h1 := (add_student_spec (StudentManager.mk [] none) stA).2 (by decide)
  have h2 := (add_student_spec mEx3 stA).1 stA (by decide)
  exact ⟨h1.1, h1.2, h2.1, h2.2⟩

/-- Witness for C7: deleting present id `"s2"` succeeds, it is gone
afterwards while `"s1"` remains; deleting absent id `"zz"` fails with the
manager unchanged. -/
theorem delete_student_spec_witness :
    (mEx3.delete_student "s2").2 = true ∧
    (mEx3.delete_student "s2").1.find_student "s2" = none ∧
    (mEx3.delete_student "s2").1.find_student "s1" = mEx3.find_student "s1" ∧
    mEx3.delete_student "zz" = (mEx3, false) := by
  have h := (delete_student_spec mEx3 "s2").2 (by decide)
  have habs := (delete_student_spec mEx3 "zz").1 (by decide)
  exact ⟨h.1, h.2.1 (by decide), h.2.2 "s1" (by decide), habs⟩

/-- A raw record whose `create_time` string `fromisoformat` rejects. -/
def rawBad : RawStudent :=
  { student_id := "x", name := "X", age := 1, gender := "M", scores := [],
    create_time := .malformed }

/-- A manager whose backing file `json.load` rejects. -/
def mJunk : StudentManager :=
  { students := [("s1", stA)], file := some .junk }

/-- A manager whose backing file parses but holds a record that fails to
deserialise. -/
def mBadRec : StudentManager :=
  { students := [("s1", stA)], file := some (.parsed [("x", rawBad)]) }

/-- Witness for C8: both failure modes — an unparseable file and a record
`from_dict` raises on — report `False` and leave the state untouched. -/
theorem load_data_failure_spec_witness :
    (mJunk.load_data).2 = false ∧ (mJunk.load_data).1 = mJunk ∧
    (mBadRec.load_data).2 = false ∧ (mBadRec.load_data).1 = mBadRec :=
  ⟨by decide, load_data_failure_spec mJunk (by decide),
   by decide, load_data_failure_spec mBadRec (by decide)⟩

theorem foldl_max_eq_or_mem (xs : List ℚ) :
    ∀ x : ℚ, xs.foldl max x = x ∨ xs.foldl max x ∈ xs := by
  induction xs with
  | nil => intro x; exact Or.inl rfl
  | cons y ys ih =>
      intro x
      simp only [List.foldl_cons]
      rcases ih (max x y) with h | h
      · rcases max_choice x y with hm | hm
        · exact Or.inl (h.trans hm)
        · refine Or.inr ?_
          rw [h, hm]
          exact List.mem_cons_self _ _
      · exact Or.inr (List.mem_cons_of_mem _ h)

theorem le_foldl_max_init (xs : List ℚ) : ∀ x : ℚ, x ≤ xs.foldl max x := by
  induction xs with
  | nil => intro x; exact le_refl x
  | cons y ys ih =>
      intro x
      simp only [List.foldl_cons]
      exact le_trans (le_max_left x y) (ih (max x y))

theorem mem_le_foldl_max (xs : List ℚ) :
    ∀ (x a : ℚ), a ∈ xs → a ≤ xs.foldl max x := by
  induction xs with
  | nil => intro x a h; cases h
  | cons y ys ih =>
      intro x a ha
      simp only [List.foldl_cons]
      rcases List.mem_cons.mp ha with h | h
      · subst h
        exact le_trans (le_max_right x a) (le_foldl_max_init ys (max x a))
      · exact ih (max x y) a h

theorem listMax_mem (l : List ℚ) (h : l ≠ []) : listMax l ∈ l := by
  cases l with
  | nil => exact absurd rfl h
  | cons x xs =>
      simp only [listMax]
      rcases foldl_max_eq_or_mem xs x with h1 | h1
      · rw [h1]
        exact List.mem_cons_self _ _
      · exact List.mem_cons_of_mem _ h1

theorem le_listMax (l : List ℚ) (a : ℚ) (ha : a ∈ l) : a ≤ listMax l := by
  cases l with
  | nil => cases ha
  | cons x xs =>
      simp only [listMax]
      rcases List.mem_cons.mp ha with h | h
      · subst h
        exact le_foldl_max_init xs a
      · exact mem_le_foldl_max xs x a h

theorem foldl_min_eq_or_mem (xs : List ℚ) :
    ∀ x : ℚ, xs.foldl min x = x ∨ xs.foldl min x ∈ xs := by
  induction xs with
  | nil => intro x; exact Or.inl rfl
  | cons y ys ih =>
      intro x
      simp only [List.foldl_cons]
      rcases ih (min x y) with h | h
      · rcases min_choice x y with hm | hm
        · exact Or.inl (h.trans hm)
        · refine Or.inr ?_
          rw [h, hm]
          exact List.mem_cons_self _ _
      · exact Or.inr (List.mem_cons_of_mem _ h)

theorem foldl_min_le_init (xs : List ℚ) : ∀ x : ℚ, xs.foldl min x ≤ x := by
  induction xs with
  | nil => intro x; exact le_refl x
  | cons y ys ih =>
      intro x
      simp only [List.foldl_cons]
      exact le_trans (ih (min x y)) (min_le_left x y)

theorem foldl_min_le_mem (xs : List ℚ) :
    ∀ (x a : ℚ), a ∈ xs → xs.foldl min x ≤ a := by
  induction xs with
  | nil => intro x a h; cases h
  | cons y ys ih =>
      intro x a ha
      simp only [List.foldl_cons]
      rcases List.mem_cons.mp ha with h | h
      · subst h
        exact le_trans (foldl_min_le_init ys (min x a)) (min_le_right x a)
      · exact ih (min x y) a h

theorem listMin_mem (l : List ℚ) (h : l ≠ []) : listMin l ∈ l := by
  cases l with
  | nil => exact absurd rfl h
  | cons x xs =>
      simp only [listMin]
      rcases foldl_min_eq_or_mem xs x with h1 | h1
      · rw [h1]
        exact List.mem_cons_self _ _
      · exact List.mem_cons_of_mem _ h1

theorem listMin_le (l : List ℚ) (a : ℚ) (ha : a ∈ l) : listMin l ≤ a := by
  cases l with
  | nil => cases ha
  | cons x xs =>
      simp only [listMin]
      rcases List.mem_cons.mp ha with h | h
      · subst h
        exact foldl_min_le_init xs a
      · exact foldl_min_le_mem xs x a h

/-- C2: `get_class_statistics` on an empty manager is the all-zero
aggregate; on a nonempty one it reports the record count, the arithmetic
mean of the per-record averages, their maximum and minimum (an attained
bound in each direction), the number of averages ≥ 90 and the number
< 60. -/
theorem statistics_spec (m : StudentManager) :
    (m.students = [] →
       m.get_class_statistics = ⟨0, 0, 0, 0, 0, 0⟩) ∧
    (m.students ≠ [] →
       (m.get_class_statistics).total_students = m.students.length ∧
       (m.get_class_statistics).average_score
         = (m.students.map (fun p => p.2.get_average_score)).sum
             / (m.students.map (fun p => p.2.get_average_score)).length ∧
       (m.get_class_statistics).max_score
         ∈ m.students.map (fun p => p.2.get_average_score) ∧
       (∀ a ∈ m.students.map (fun p => p.2.get_average_score),
          a ≤ (m.get_class_statistics).max_score) ∧
       (m.get_class_statistics).min_score
         ∈ m.students.map (fun p => p.2.get_average_score) ∧
       (∀ a ∈ m.students.map (fun p => p.2.get_average_score),
          (m.get_class_statistics).min_score ≤ a) ∧
       (m.get_class_statistics).excellent_count
         = ((m.students.map (fun p => p.2.get_average_score)).filter
             (fun s => 90 ≤ s)).length ∧
       (m.get_class_statistics).fail_count
         = ((m.students.map (fun p => p.2.get_average_score)).filter
             (fun s => s < 60)).length) := by
  constructor
  · intro h
    simp [StudentManager.get_class_statistics, h]
  · intro h
    have hmap : m.students.map (fun p => p.2.get_average_score) ≠ [] := by
      simpa using h
    unfold StudentManager.get_class_statistics
    rw [if_neg h]
    refine ⟨rfl, by rw [List.length_map], listMax_mem _ hmap,
      fun a ha => le_listMax _ a ha, listMin_mem _ hmap,
      fun a ha => listMin_le _ a ha, rfl, rfl⟩

/-- Witness for C2: on the manager with averages 95, 55, 72 the aggregate
is count 3, mean 74, max 95, min 55, one excellent, one failing. -/
theorem statistics_spec_witness :
    (mEx3.get_class_statistics).total_students = 3 ∧
    (mEx3.get_class_statistics).average_score = 74 ∧
    (mEx3.get_class_statistics).max_score = 95 ∧
    (mEx3.get_class_statistics).min_score = 55 ∧
    (mEx3.get_class_statistics).excellent_count = 1 ∧
    (mEx3.get_class_statistics).fail_count = 1 := by
  have hA : stA.get_average_score = 95 := by
    norm_num [stA, Student.get_average_score]
  have hB : stB.get_average_score = 55 := by
    norm_num [stB, Student.get_average_score]
  have hC : stC.get_average_score = 72 := by
    norm_num [stC, Student.get_average_score]
  have hmap : mEx3.students.map (fun p => p.2.get_average_score)
      = [95, 55, 72] := by
    simp [mEx3, hA, hB, hC]
  have hne : mEx3.students ≠ [] := by
    simp [mEx3]
  obtain ⟨h1, h2, h3, h4, h5, h6, h7, h8⟩ := (statistics_spec mEx3).2 hne
  refine ⟨h1.trans (by simp [mEx3]), h2.trans ?_, ?_, ?_, h7.trans ?_, h8.trans ?_⟩
  · rw [hmap]
    norm_num
  · rw [hmap] at h3
    have hle := h4 (95 : ℚ) (by rw [hmap]; exact List.mem_cons_self _ _)
    simp only [List.mem_cons, List.not_mem_nil, or_false] at h3
    rcases h3 with h | h | h
    · exact h
    · rw [h] at hle
      norm_num at hle
    · rw [h] at hle
      norm_num at hle
  · rw [hmap] at h5
    have hle := h6 (55 : ℚ)
      (by rw [hmap]; exact List.mem_cons_of_mem _ (List.mem_cons_self _ _))
    simp only [List.mem_cons, List.not_mem_nil, or_false] at h5
    rcases h5 with h | h | h
    · rw [h] at hle
      norm_num at hle
    · exact h
    · rw [h] at hle
      norm_num at hle
  · rw [hmap]
    norm_num [List.filter]
  · rw [hmap]
    norm_num [List.filter]

theorem add_score_fields (s : Student) (subject : String) (v : ScoreVal) :
    ((s.add_score subject v).1.student_id = s.student_id) ∧
    ((s.add_score subject v).1.name = s.name) ∧
    ((s.add_score subject v).1.age = s.age) ∧
    ((s.add_score subject v).1.gender = s.gender) ∧
    ((s.add_score subject v).1.create_time = s.create_time) := by
  cases v with
  | nonNumeric => exact ⟨rfl, rfl, rfl, rfl, rfl⟩
  | num q =>
      by_cases h : q < 0 ∨ 100 < q
      · simp [Student.add_score, h]
      · simp [Student.add_score, h]

theorem foldl_add_score_fields (l : List (String × ScoreVal)) :
    ∀ s : Student,
      ((l.foldl (fun s p => (s.add_score p.1 p.2).1) s).student_id
        = s.student_id) ∧
      ((l.foldl (fun s p => (s.add_score p.1 p.2).1) s).name = s.name) ∧
      ((l.foldl (fun s p => (s.add_score p.1 p.2).1) s).age = s.age) ∧
      ((l.foldl (fun s p => (s.add_score p.1 p.2).1) s).gender = s.gender) ∧
      ((l.foldl (fun s p => (s.add_score p.1 p.2).1) s).create_time
        = s.create_time) := by
  induction l with
  | nil => intro s; exact ⟨rfl, rfl, rfl, rfl, rfl⟩
  | cons p rest ih =>
      intro s
      simp only [List.foldl_cons]
      obtain ⟨i1, i2, i3, i4, i5⟩ := ih ((s.add_score p.1 p.2).1)
      obtain ⟨a1, a2, a3, a4, a5⟩ := add_score_fields s p.1 p.2
      exact ⟨i1.trans a1, i2.trans a2, i3.trans a3, i4.trans a4, i5.trans a5⟩

theorem foldl_add_score_unmentioned (l : List (String × ScoreVal)) :
    ∀ (s : Student) (subj : String), subj ∉ l.map Prod.fst →
      dictGet subj (l.foldl (fun s p => (s.add_score p.1 p.2).1) s).scores
        = dictGet subj s.scores := by
  induction l with
  | nil => intro s subj _; rfl
  | cons p rest ih =>
      intro s subj hs
      simp only [List.map_cons, List.mem_cons] at hs
      push_neg at hs
      simp only [List.foldl_cons]
      rw [ih _ subj hs.2]
      obtain ⟨k, v⟩ := p
      cases v with
      | nonNumeric => rfl
      | num q =>
          by_cases h : q < 0 ∨ 100 < q
          · simp [Student.add_score, h]
          · simp only [Student.add_score, if_neg h]
            exact dictGet_insert_ne k subj q s.scores (fun hk => hs.1 hk.symm)

theorem foldl_add_score_mentioned (l : List (String × ScoreVal)) :
    ∀ s : Student, (l.map Prod.fst).Nodup →
      ∀ (subj : String) (q : ℚ), (subj, ScoreVal.num q) ∈ l →
        0 ≤ q → q ≤ 100 →
        dictGet subj (l.foldl (fun s p => (s.add_score p.1 p.2).1) s).scores
          = some q := by
  induction l with
  | nil => intro s _ subj q hmem; cases hmem
  | cons p rest ih =>
      intro s hnodup subj q hmem h0 h100
      obtain ⟨k, v⟩ := p
      simp only [List.map_cons, List.nodup_cons] at hnodup
      simp only [List.foldl_cons]
      rcases List.mem_cons.mp hmem with h | h
      · obtain ⟨hk, hv⟩ := Prod.mk.injEq .. ▸ h
        subst hk
        subst hv
        rw [foldl_add_score_unmentioned rest _ subj hnodup.1]
        have hval : ¬ (q < 0 ∨ 100 < q) := by
          push_neg
          exact ⟨h0, h100⟩
        simp only [Student.add_score, if_neg hval]
        exact dictGet_insert_self subj q s.scores
      · exact ih _ hnodup.2 subj q h h0 h100

theorem applyUpdate_base (st : Student) (kw : UpdateFields) :
    (applyUpdate st kw).student_id = st.student_id ∧
    (applyUpdate st kw).create_time = st.create_time ∧
    (applyUpdate st kw).name = kw.name.getD st.name ∧
    (applyUpdate st kw).age = kw.age.getD st.age ∧
    (applyUpdate st kw).gender = kw.gender.getD st.gender := by
  obtain ⟨n, a, g, sc⟩ := kw
  cases sc with
  | none => cases n <;> cases a <;> cases g <;> exact ⟨rfl, rfl, rfl, rfl, rfl⟩
  | some l =>
      cases n <;> cases a <;> cases g <;>
        exact ⟨(foldl_add_score_fields l _).1,
          (foldl_add_score_fields l _).2.2.2.2,
          (foldl_add_score_fields l _).2.1,
          (foldl_add_score_fields l _).2.2.1,
          (foldl_add_score_fields l _).2.2.2.1⟩

theorem applyUpdate_scores_none (st : Student) (kw : UpdateFields)
    (h : kw.scores = none) : (applyUpdate st kw).scores = st.scores := by
  obtain ⟨n, a, g, sc⟩ := kw
  cases h
  cases n <;> cases a <;> cases g <;> rfl

theorem applyUpdate_scores_unmentioned (st : Student) (kw : UpdateFields)
    (l : List (String × ScoreVal)) (h : kw.scores = some l) (subj : String)
    (hsubj : subj ∉ l.map Prod.fst) :
    dictGet subj (applyUpdate st kw).scores = dictGet subj st.scores := by
  obtain ⟨n, a, g, sc⟩ := kw
  cases h
  cases n <;> cases a <;> cases g <;>
    exact foldl_add_score_unmentioned l _ subj hsubj

theorem applyUpdate_scores_mentioned (st : Student) (kw : UpdateFields)
    (l : List (String × ScoreVal)) (h : kw.scores = some l)
    (hnodup : (l.map Prod.fst).Nodup) (subj : String) (q : ℚ)
    (hmem : (subj, ScoreVal.num q) ∈ l) (h0 : 0 ≤ q) (h100 : q ≤ 100) :
    dictGet subj (applyUpdate st kw).scores = some q := by
  obtain ⟨n, a, g, sc⟩ := kw
  cases h
  cases n <;> cases a <;> cases g <;>
    exact foldl_add_score_mentioned l _ hnodup subj q hmem h0 h100

/-- C3: `update_student` of an absent id returns `False` leaving the
manager unchanged; of a present id it returns `True` and replaces the
stored record by the patched one, whose identity and creation time are
untouched, whose basic fields take the supplied values (absent fields
untouched), and whose scores are merged key-by-key through `add_score`:
subjects not mentioned in the update keep their values, mentioned subjects
with an acceptable value are overwritten (subject keys of the supplied
dict being unduplicated, as Python dict keys are). -/
theorem update_student_spec (m : StudentManager) (student_id : String)
    (kw : UpdateFields) :
    (dictGet student_id m.students = none →
       m.update_student student_id kw = (m, false)) ∧
    (∀ st : Student, dictGet student_id m.students = some st →
       (m.update_student student_id kw).2 = true ∧
       (m.update_student student_id kw).1.find_student student_id
         = some (applyUpdate st kw) ∧
       (applyUpdate st kw).student_id = st.student_id ∧
       (applyUpdate st kw).create_time = st.create_time ∧
       (applyUpdate st kw).name = kw.name.getD st.name ∧
       (applyUpdate st kw).age = kw.age.getD st.age ∧
       (applyUpdate st kw).gender = kw.gender.getD st.gender ∧
       (kw.scores = none → (applyUpdate st kw).scores = st.scores) ∧
       (∀ l : List (String × ScoreVal), kw.scores = some l →
          (∀ subj : String, subj ∉ l.map Prod.fst →
             dictGet subj (applyUpdate st kw).scores
               = dictGet subj st.scores) ∧
          ((l.map Prod.fst).Nodup →
             ∀ (subj : String) (q : ℚ), (subj, ScoreVal.num q) ∈ l →
               0 ≤ q → q ≤ 100 →
               dictGet subj (applyUpdate st kw).scores = some q))) := by
  constructor
  · intro h
    simp [StudentManager.update_student, h]
  · intro st hst
    have hres : m.update_student student_id kw
        = (({ m with
               students := dictInsert student_id (applyUpdate st kw) m.students
             } : StudentManager).save_data.1, true) := by
      simp [StudentManager.update_student, hst]
    obtain ⟨hb1, hb2, hb3, hb4, hb5⟩ := applyUpdate_base st kw
    refine ⟨by rw [hres], ?_, hb1, hb2, hb3, hb4, hb5,
      applyUpdate_scores_none st kw, ?_⟩
    · rw [hres]
      exact dictGet_insert_self _ _ _
    · intro l hl
      exact ⟨fun subj hsubj =>
          applyUpdate_scores_unmentioned st kw l hl subj hsubj,
        fun hnodup subj q hmem h0 h100 =>
          applyUpdate_scores_mentioned st kw l hl hnodup subj q hmem h0 h100⟩

/-- An update patch: new name, new gender, one new score; age untouched. -/
def kwEx : UpdateFields :=
  { name := some "Bobby", age := none, gender := some "M",
    scores := some [("eng", .num 70)] }

/-- Witness for C3: patching present id `"s2"` succeeds; the patched record
keeps its id, creation time and age, takes the new name, keeps subject
`"math"` at 55 and gains `"eng"` at 70; patching absent id `"zz"` fails
with the manager unchanged. -/
theorem update_student_spec_witness :
    (mEx3.update_student "s2" kwEx).2 = true ∧
    (mEx3.update_student "s2" kwEx).1.find_student "s2"
      = some (applyUpdate stB kwEx) ∧
    (applyUpdate stB kwEx).student_id = "s2" ∧
    (applyUpdate stB kwEx).create_time = stB.create_time ∧
    (applyUpdate stB kwEx).name = "Bobby" ∧
    (applyUpdate stB kwEx).age = 21 ∧
    (applyUpdate stB kwEx).gender = "M" ∧
    dictGet "math" (applyUpdate stB kwEx).scores = some 55 ∧
    dictGet "eng" (applyUpdate stB kwEx).scores = some 70 ∧
    mEx3.update_student "zz" kwEx = (mEx3, false) := by
  obtain ⟨h1, h2, hb1, hb2, hb3, hb4, hb5, _, hsome⟩ :=
    (update_student_spec mEx3 "s2" kwEx).2 stB (by decide)
  obtain ⟨hunm, hment⟩ := hsome [("eng", .num 70)] rfl
  have habs := (update_student_spec mEx3 "zz" kwEx).1 (by decide)
  refine ⟨h1, h2, hb1, hb2, hb3, hb4, hb5,
    (hunm "math" (by decide)).trans (by decide), ?_, habs⟩
  exact hment (by decide) "eng" 70 (by decide) (by norm_num) (by norm_num)

theorem foldl_add_score_invalid (l : List (String × ScoreVal)) :
    ∀ s : Student, (∀ p ∈ l, scoreOK p.2 = false) →
      l.foldl (fun s p => (s.add_score p.1 p.2).1) s = s := by
  induction l with
  | nil => intro s _; rfl
  | cons p rest ih =>
      intro s hall
      simp only [List.foldl_cons]
      have hp : scoreOK p.2 = false := hall p (List.mem_cons_self _ _)
      have hs : (s.add_score p.1 p.2).1 = s := by
        obtain ⟨k, v⟩ := p
        cases v with
        | nonNumeric => rfl
        | num q =>
            have hq : q < 0 ∨ 100 < q := by
              by_contra hc
              push_neg at hc
              simp [scoreOK, hc.1, hc.2] at hp
            simp [Student.add_score, hq]
      rw [hs]
      exact ih s (fun p' hp' => hall p' (List.mem_cons_of_mem _ hp'))

theorem dictInsert_eq_self (k : String) (v : α) (l : List (String × α))
    (h : dictGet k l = some v) : dictInsert k v l = l := by
  induction l with
  | nil => cases h
  | cons p rest ih =>
      obtain ⟨k₀, v₀⟩ := p
      by_cases h0 : k₀ = k
      · subst h0
        rw [dictGet, if_pos rfl] at h
        injection h with h
        subst h
        simp [dictInsert]
      · rw [dictGet, if_neg h0] at h
        simp [dictInsert, h0, ih h]

/-- C9: an update whose supplied scores are all invalid (non-numeric or
out of [0,100]) on a present id still returns `True` and persists (the
backing file is rewritten from the unchanged mapping), while every invalid
entry is silently dropped: the stored record, and the whole student
mapping, are exactly as before. -/
theorem update_invalid_scores_spec (m : StudentManager) (student_id : String)
    (st : Student) (l : List (String × ScoreVal))
    (hst : dictGet student_id m.students = some st)
    (hinv : ∀ p ∈ l, scoreOK p.2 = false) :
    (m.update_student student_id
        (UpdateFields.mk none none none (some l))).2 = true ∧
    (m.update_student student_id
        (UpdateFields.mk none none none (some l))).1.students = m.students ∧
    (m.update_student student_id
        (UpdateFields.mk none none none (some l))).1.find_student student_id
      = some st ∧
    (m.update_student student_id
        (UpdateFields.mk none none none (some l))).1.file
      = some (.parsed (m.students.map (fun p => (p.1, p.2.to_dict)))) := by
  have happ : applyUpdate st (UpdateFields.mk none none none (some l)) = st :=
    foldl_add_score_invalid l st hinv
  have hstud : dictInsert student_id
      (applyUpdate st (UpdateFields.mk none none none (some l))) m.students
        = m.students := by
    rw [happ]
    exact dictInsert_eq_self _ _ _ hst
  refine ⟨?_, ?_, ?_, ?_⟩ <;>
    simp [StudentManager.update_student, hst, StudentManager.save_data,
      StudentManager.find_student, hstud]

/-- A scores dict whose every value `add_score` rejects. -/
def lBad : List (String × ScoreVal) := [("math", .num 200), ("eng", .nonNumeric)]

/-- Witness for C9: updating `"s1"` with only invalid scores reports
success while the mapping, the stored record included, is unchanged. -/
theorem update_invalid_scores_spec_witness :
    (mEx3.update_student "s1"
        (UpdateFields.mk none none none (some lBad))).2 = true ∧
    (mEx3.update_student "s1"
        (UpdateFields.mk none none none (some lBad))).1.students
      = mEx3.students ∧
    (mEx3.update_student "s1"
        (UpdateFields.mk none none none (some lBad))).1.find_student "s1"
      = some stA := by
  have h := update_invalid_scores_spec mEx3 "s1" stA lBad (by decide) (by decide)
  exact ⟨h.1, h.2.1, h.2.2.1⟩

theorem mem_of_dictGet (k : String) (l : List (String × α)) (v : α)
    (h : dictGet k l = some v) : (k, v) ∈ l := by
  induction l with
  | nil => cases h
  | cons p rest ih =>
      obtain ⟨k₀, v₀⟩ := p
      by_cases h0 : k₀ = k
      · subst h0
        rw [dictGet, if_pos rfl] at h
        injection h with h
        subst h
        exact List.mem_cons_self _ _
      · rw [dictGet, if_neg h0] at h
        exact List.mem_cons_of_mem _ (ih h)

/-- The data-model invariant on a scores dict: every score in [0, 100]. -/
def ScoresInRange (sc : List (String × ℚ)) : Prop :=
  ∀ q ∈ sc, 0 ≤ q.2 ∧ q.2 ≤ 100

/-- The invariant extended to the backing file: an absent or unparseable
file is unconstrained; a parsed document's records all have in-range
scores. -/
def FileOK : Option FileContent → Prop
  | some (.parsed raw) => ∀ d ∈ raw, ScoresInRange d.2.scores
  | _ => True

/-- The full state invariant: every stored record and every record in the
persisted document has only in-range scores. -/
def MgrOK (m : StudentManager) : Prop :=
  (∀ p ∈ m.students, ScoresInRange p.2.scores) ∧ FileOK m.file

theorem add_score_range (s : Student) (subject : String) (v : ScoreVal)
    (h : ScoresInRange s.scores) :
    ScoresInRange (s.add_score subject v).1.scores := by
  cases v with
  | nonNumeric => exact h
  | num q =>
      by_cases hq : q < 0 ∨ 100 < q
      · simp only [Student.add_score, if_pos hq]
        exact h
      · simp only [Student.add_score, if_neg hq]
        push_neg at hq
        intro p hp
        rcases mem_dictInsert _ _ _ _ hp with h1 | h1
        · rw [h1]
          exact ⟨hq.1, hq.2⟩
        · exact h p h1

theorem foldl_add_score_range (l : List (String × ScoreVal)) :
    ∀ s : Student, ScoresInRange s.scores →
      ScoresInRange
        (l.foldl (fun s p => (s.add_score p.1 p.2).1) s).scores := by
  induction l with
  | nil => intro s h; exact h
  | cons p rest ih =>
      intro s h
      simp only [List.foldl_cons]
      exact ih _ (add_score_range s p.1 p.2 h)

theorem applyUpdate_range (st : Student) (kw : UpdateFields)
    (h : ScoresInRange st.scores) :
    ScoresInRange (applyUpdate st kw).scores := by
  obtain ⟨n, a, g, sc⟩ := kw
  cases sc with
  | none => cases n <;> cases a <;> cases g <;> exact h
  | some l => cases n <;> cases a <;> cases g <;>
      exact foldl_add_score_range l _ h

theorem from_dict_scores (d : RawStudent) (st : Student)
    (h : Student.from_dict d = some st) : st.scores = d.scores := by
  unfold Student.from_dict at h
  cases hct : fromisoformat d.create_time with
  | none =>
      rw [hct] at h
      cases h
  | some t =>
      rw [hct] at h
      injection h with h
      subst h
      rfl

theorem loadStudents_range (raw : List (String × RawStudent)) :
    ∀ sts : List (String × Student), loadStudents raw = some sts →
      (∀ d ∈ raw, ScoresInRange d.2.scores) →
      ∀ p ∈ sts, ScoresInRange p.2.scores := by
  induction raw with
  | nil =>
      intro sts h _ p hp
      injection h with h
      subst h
      cases hp
  | cons rd rest ih =>
      intro sts h hok p hp
      obtain ⟨sid, d⟩ := rd
      simp only [loadStudents] at h
      cases hfd : Student.from_dict d with
      | none =>
          rw [hfd] at h
          cases h
      | some st =>
          cases hls : loadStudents rest with
          | none =>
              rw [hfd, hls] at h
              cases h
          | some l =>
              rw [hfd, hls] at h
              injection h with h
              subst h
              rcases List.mem_cons.mp hp with h1 | h1
              · subst h1
                have hsc : st.scores = d.scores := from_dict_scores d st hfd
                intro q hq
                rw [hsc] at hq
                exact hok (sid, d) (List.mem_cons_self _ _) q hq
              · exact ih l hls
                  (fun d' hd' => hok d' (List.mem_cons_of_mem _ hd')) p h1

theorem save_data_ok (m : StudentManager)
    (h : ∀ p ∈ m.students, ScoresInRange p.2.scores) :
    MgrOK m.save_data.1 := by
  refine ⟨h, ?_⟩
  intro d hd
  simp only [List.mem_map] at hd
  obtain ⟨p, hp, rfl⟩ := hd
  exact h p hp

/-- One interaction with the Store, as the presentation shell issues it:
creating a student (the UI constructs `Student(...)` — empty scores — after
validating its inputs), recording a score (the UI finds the student, calls
`add_score`, and saves when it succeeded), deleting, the keyword-style
partial update, an explicit save, and a reload from the backing file. -/
inductive Op where
  | addNew (student_id name : String) (age : Int) (gender : String)
      (now : Timestamp)
  | score (student_id subject : String) (v : ScoreVal)
  | remove (student_id : String)
  | patch (student_id : String) (kw : UpdateFields)
  | persist
  | reload

/-- The state transition each operation performs (the returned success
flag of the underlying call is dropped, as the shell only prints it). -/
def applyOp (m : StudentManager) : Op → StudentManager
  | .addNew sid nm a g now => (m.add_student (Student.init sid nm a g now)).1
  | .score sid subj v =>
      match dictGet sid m.students with
      | none => m
      | some st =>
          let r := st.add_score subj v
          let m' := { m with students := dictInsert sid r.1 m.students }
          if r.2 then m'.save_data.1 else m'
  | .remove sid => (m.delete_student sid).1
  | .patch sid kw => (m.update_student sid kw).1
  | .persist => m.save_data.1
  | .reload => m.load_data.1

/-- A fresh first run: no students yet, no backing file yet. -/
def initMgr : StudentManager := { students := [], file := none }

/-- Running a whole interaction sequence from the first run. -/
def runOps (ops : List Op) : StudentManager := ops.foldl applyOp initMgr

theorem applyOp_ok (m : StudentManager) (o : Op) (h : MgrOK m) :
    MgrOK (applyOp m o) := by
  obtain ⟨hs, hf⟩ := h
  cases o with
  | addNew sid nm a g now =>
      simp only [applyOp, StudentManager.add_student]
      by_cases hd :
          (dictGet (Student.init sid nm a g now).student_id m.students).isSome
            = true
      · simp only [if_pos hd]
        exact ⟨hs, hf⟩
      · simp only [if_neg hd]
        apply save_data_ok
        intro p hp
        rcases mem_dictInsert _ _ _ _ hp with h1 | h1
        · rw [h1]
          intro q hq
          cases hq
        · exact hs p h1
  | score sid subj v =>
      cases hd : dictGet sid m.students with
      | none =>
          simp only [applyOp, hd]
          exact ⟨hs, hf⟩
      | some st =>
          have hins : ∀ p ∈ dictInsert sid (st.add_score subj v).1 m.students,
              ScoresInRange p.2.scores := by
            intro p hp
            rcases mem_dictInsert _ _ _ _ hp with h1 | h1
            · rw [h1]
              exact add_score_range st subj v
                (hs (sid, st) (mem_of_dictGet sid m.students st hd))
            · exact hs p h1
          simp only [applyOp, hd]
          cases hb : (st.add_score subj v).2
          · simp only [Bool.false_eq_true, if_false]
            exact ⟨hins, hf⟩
          · simp only [if_true]
            exact save_data_ok _ hins
  | remove sid =>
      simp only [applyOp, StudentManager.delete_student]
      by_cases hd : (dictGet sid m.students).isSome = true
      · simp only [if_pos hd]
        apply save_data_ok
        intro p hp
        exact hs p (mem_of_mem_dictRemove _ _ _ hp)
      · simp only [if_neg hd]
        exact ⟨hs, hf⟩
  | patch sid kw =>
      cases hd : dictGet sid m.students with
      | none =>
          simp only [applyOp, StudentManager.update_student, hd]
          exact ⟨hs, hf⟩
      | some st =>
          simp only [applyOp, StudentManager.update_student, hd]
          apply save_data_ok
          intro p hp
          rcases mem_dictInsert _ _ _ _ hp with h1 | h1
          · rw [h1]
            exact applyUpdate_range st kw
              (hs (sid, st) (mem_of_dictGet sid m.students st hd))
          · exact hs p h1
  | persist => exact save_data_ok m hs
  | reload =>
      cases hfile : m.file with
      | none =>
          simp only [applyOp, StudentManager.load_data, hfile]
          exact ⟨hs, hf⟩
      | some fc =>
          cases fc with
          | junk =>
              simp only [applyOp, StudentManager.load_data, hfile]
              exact ⟨hs, hf⟩
          | parsed raw =>
              have hraw : ∀ d ∈ raw, ScoresInRange d.2.scores := by
                rw [hfile] at hf
                exact hf
              cases hls : loadStudents raw with
              | none =>
                  simp only [applyOp, StudentManager.load_data, hfile, hls]
                  exact ⟨hs, hf⟩
              | some sts =>
                  simp only [applyOp, StudentManager.load_data, hfile, hls]
                  refine ⟨loadStudents_range raw sts hls hraw, ?_⟩
                  rw [hfile] at hf
                  exact hf

theorem runOps_ok (ops : List Op) :
    ∀ m : StudentManager, MgrOK m → MgrOK (ops.foldl applyOp m) := by
  induction ops with
  | nil => intro m h; exact h
  | cons o rest ih =>
      intro m h
      simp only [List.foldl_cons]
      exact ih _ (applyOp_ok m o h)

/-- C4: after any sequence of Store operations — adds, score insertions,
deletes, partial updates, saves and loads of the backing file — every
score of every stored record lies in [0, 100]; since the persisted
document is itself part of the preserved invariant, loading a persisted
document restores only in-range scores. -/
theorem scores_in_range_invariant (ops : List Op) :
    ∀ p ∈ (runOps ops).students, ∀ q ∈ p.2.scores, 0 ≤ q.2 ∧ q.2 ≤ 100 := by
  have h := runOps_ok ops initMgr
    ⟨fun p hp => absurd hp (List.not_mem_nil p), trivial⟩
  exact h.1

/-- An interaction sequence ending in a save and a reload. -/
def opsEx : List Op :=
  [.addNew "s1" "Alice" 20 "F" 0, .score "s1" "math" (.num 95),
   .persist, .reload]

/-- Witness for C4: after creating a student, recording score 95, saving
and reloading, the stored score 95 is in range. -/
theorem scores_in_range_invariant_witness :
    0 ≤ (95 : ℚ) ∧ (95 : ℚ) ≤ 100 :=
  scores_in_range_invariant opsEx
    ("s1", { student_id := "s1", name := "Alice", age := 20, gender := "F",
             scores := [("math", 95)], create_time := 0 }) (by decide)
    ("math", 95) (by decide)

theorem get_average_score_nonneg (s : Student)
    (h : ∀ q ∈ s.scores, 0 ≤ q.2) : 0 ≤ s.get_average_score := by
  unfold Student.get_average_score
  by_cases hsc : s.scores = []
  · simp [hsc]
  · rw [if_neg hsc]
    apply div_nonneg
    · apply List.sum_nonneg
      intro x hx
      simp only [List.mem_map] at hx
      obtain ⟨q, hq, rfl⟩ := hx
      exact h q hq
    · exact Nat.cast_nonneg _

/-- C10: in any manager satisfying the score-range invariant, a record
with an empty scores dict has average 0, so `get_class_statistics` reports
the minimum of the per-record averages as 0 and counts that record among
the failures (average < 60) — indistinguishable in the aggregate from a
student who scored zero. -/
theorem empty_scores_statistics (m : StudentManager) (sid : String)
    (s0 : Student)
    (hrange : ∀ p ∈ m.students, ∀ q ∈ p.2.scores, 0 ≤ q.2 ∧ q.2 ≤ 100)
    (hmem : (sid, s0) ∈ m.students) (hempty : s0.scores = []) :
    s0.get_average_score = 0 ∧
    (m.get_class_statistics).min_score = 0 ∧
    1 ≤ (m.get_class_statistics).fail_count := by
  have havg : s0.get_average_score = 0 := by
    simp [Student.get_average_score, hempty]
  have hne : m.students ≠ [] := List.ne_nil_of_mem hmem
  have h0mem : (0 : ℚ) ∈ m.students.map (fun p => p.2.get_average_score) :=
    List.mem_map.mpr ⟨(sid, s0), hmem, havg⟩
  have hmapne : m.students.map (fun p => p.2.get_average_score) ≠ [] :=
    List.ne_nil_of_mem h0mem
  have hnonneg : ∀ a ∈ m.students.map (fun p => p.2.get_average_score),
      0 ≤ a := by
    intro a ha
    simp only [List.mem_map] at ha
    obtain ⟨p, hp, rfl⟩ := ha
    exact get_average_score_nonneg p.2 (fun q hq => (hrange p hp q hq).1)
  refine ⟨havg, ?_, ?_⟩
  · simp only [StudentManager.get_class_statistics, if_neg hne]
    exact le_antisymm (listMin_le _ 0 h0mem)
      (hnonneg _ (listMin_mem _ hmapne))
  · simp only [StudentManager.get_class_statistics, if_neg hne]
    have hfmem : (0 : ℚ) ∈ (m.students.map
        (fun p => p.2.get_average_score)).filter (fun s => s < 60) :=
      List.mem_filter.mpr ⟨h0mem, by decide⟩
    exact List.length_pos.mpr (List.ne_nil_of_mem hfmem)

/-- Example record with no scores at all. -/
def stD : Student :=
  { student_id := "s4", name := "Dan", age := 23, gender := "M",
    scores := [], create_time := 3 }

/-- Manager holding a 95-average record and a no-scores record. -/
def mEmptyScores : StudentManager :=
  { students := [("s1", stA), ("s4", stD)], file := none }

/-- Witness for C10: with records averaging 95 and (no scores) 0, the
reported minimum is 0 and the failure count is at least one. -/
theorem empty_scores_statistics_witness :
    stD.get_average_score = 0 ∧
    (mEmptyScores.get_class_statistics).min_score = 0 ∧
    1 ≤ (mEmptyScores.get_class_statistics).fail_count :=
  empty_scores_statistics mEmptyScores "s4" stD (by decide) (by decide) rfl
